import Mathlib

/-!
Verification development for the etherscan_transaction harvester.

The definitions below are a shallow embedding of the Python sources:

* `src/utils/utils.py`    — coverage index handling (`load_index`, `save_index`,
  `parse_block_range_from_filename`, `make_chunk_filename`,
  `update_index_with_file`, `mark_files_merged`, `is_block_in_index`);
* `src/fetch_eth.py`      — the EVM backward harvester loop
  (`_covering_range`, `_fetch_batch`, `fetch_and_save_transactions`);
* `src/fetch_tron.py`     — the TRON windowed harvester
  (`_save_resume`, `_write_block_records`, the page loop of `harvest_simple`);
* `src/utils/tronscan.py` — the paging client and normalizer
  (`_get`, `fetch_trc20_transfers_page`, `normalize_trc20_transfers`);
* `src/merge.py` and `src/merge_eth.py` — the two merge scripts.

Machine integers are modelled as `Int`/`Nat` (Python integers are unbounded),
Python `None`/absent-key values as `Option`, JSON dictionaries as association
lists preserving insertion order (CPython dictionaries preserve it), and the
network as explicit oracles.  File I/O on the chunk/state files is modelled as
explicit state threading; for atomicity questions every crash point of a save
is enumerated as a list of observable disk states.
-/

/-! ## Python string helpers used by `parse_block_range_from_filename`

`str.replace('.csv','')`, `str.split('_')`, `str.isdigit` and `int(...)` are
modelled at the character level so that everything reduces in the kernel.
Only ASCII-digit filenames produced by `make_chunk_filename` are relevant,
matching `str.isdigit` on such content. -/

/-- Model of Python `s.replace('.csv', '')`: removes every occurrence of
`.csv`, scanning left to right.  The `Nat` argument is fuel (one unit per
consumed character; callers pass the length of the list). -/
def removeCsvAux : Nat → List Char → List Char
  | 0, cs => cs
  | _ + 1, [] => []
  | fuel + 1, c :: rest =>
    if c = '.' ∧ rest.take 3 = ['c', 's', 'v'] then removeCsvAux fuel (rest.drop 3)
    else c :: removeCsvAux fuel rest

/-- Model of Python `s.split(sep)` for a single-character separator. -/
def splitOnChar (sep : Char) : List Char → List (List Char)
  | [] => [[]]
  | c :: rest =>
    let r := splitOnChar sep rest
    if c = sep then [] :: r
    else
      match r with
      | [] => [[c]]
      | g :: gs => (c :: g) :: gs

/-- Model of Python `s.isdigit()` on ASCII content: nonempty and all digits. -/
def pyIsDigit (cs : List Char) : Bool := !cs.isEmpty && cs.all Char.isDigit

/-- Value of a string of ASCII digits, as read by Python `int(...)`. -/
def digitsToNat (cs : List Char) : Nat := cs.foldl (fun n c => 10 * n + (c.toNat - 48)) 0

/-! ## Coverage index (`src/utils/utils.py`)

The on-disk index is the JSON object
`{'files': {name: {'high','low'}}, 'global': {'min','max'}, 'merged': {'min','max','files'}}`.
`files` is an association list (filename to `(high, low)`), envelopes are
`Option Int` (`None` when unset). -/

structure EthIndex where
  files : List (String × Int × Int)
  globalMin : Option Int
  globalMax : Option Int
  mergedMin : Option Int
  mergedMax : Option Int
  mergedFiles : List String
deriving DecidableEq

/-- Model of `utils._empty_index` (utils.py line 23). -/
def empty_index : EthIndex := ⟨[], none, none, none, none, []⟩

/-- Model of `utils.parse_block_range_from_filename` (utils.py lines 63-68).  The
Python function returns the pair `(None, None)` or two ints; the two shapes
are modelled as `Option (Int × Int)`.  `Path(filename).name` is the identity
on the bare chunk names this repository passes in (no path separator). -/
def parse_block_range_from_filename (filename : String) : Option (Int × Int) :=
  let base := removeCsvAux filename.data.length filename.data
  match splitOnChar '_' base with
  | [a, b] =>
    if pyIsDigit a && pyIsDigit b then some ((digitsToNat a : Int), (digitsToNat b : Int))
    else none
  | _ => none

/-- Model of `utils.make_chunk_filename` (utils.py lines 70-71). -/
def make_chunk_filename (high low : Int) : String :=
  toString high ++ "_" ++ toString low ++ ".csv"

/-- Python dict insert: overwrite in place if the key exists, else append. -/
def dictInsert (l : List (String × Int × Int)) (k : String) (v : Int × Int) :
    List (String × Int × Int) :=
  match l with
  | [] => [(k, v)]
  | (k', v') :: rest => if k' = k then (k, v) :: rest else (k', v') :: dictInsert rest k v

/-- Running minimum as computed at utils.py line 78:
`low if gmin is None else min(gmin, low)`. -/
def mergeMinO (g : Option Int) (l : Int) : Option Int :=
  match g with
  | none => some l
  | some m => some (min m l)

/-- Running maximum as computed at utils.py line 79. -/
def mergeMaxO (g : Option Int) (h : Int) : Option Int :=
  match g with
  | none => some h
  | some m => some (max m h)

/-- Model of `utils.update_index_with_file` (utils.py lines 73-80). -/
def update_index_with_file (index : EthIndex) (filename : String) : EthIndex :=
  match parse_block_range_from_filename filename with
  | none => index
  | some (high, low) =>
    { index with
      files := dictInsert index.files filename (high, low)
      globalMin := mergeMinO index.globalMin low
      globalMax := mergeMaxO index.globalMax high }

/-- Model of `utils.is_block_in_index` (utils.py lines 96-102): envelope pre-check,
then containment in some `files` entry. -/
def is_block_in_index (block : Int) (index : EthIndex) : Bool :=
  match index.globalMin, index.globalMax with
  | some gmin, some gmax =>
    if block < gmin || block > gmax then false
    else index.files.any fun kv => decide (kv.2.2 ≤ block) && decide (block ≤ kv.2.1)
  | _, _ => false

/-- Python `min(list)` over a list of ints (`None`-free): `none` iff empty. -/
def pyMinList : List Int → Option Int
  | [] => none
  | x :: xs => some (xs.foldl min x)

/-- Python `max(list)` over a list of ints: `none` iff empty. -/
def pyMaxList : List Int → Option Int
  | [] => none
  | x :: xs => some (xs.foldl max x)

/-! ## Stable sorting

Python `list.sort` / `sorted` is a stable sort; with `reverse=True` the
comparison is inverted but stability is kept.  Any stable sort is
extensionally determined by the (total) comparison, so a stable insertion
sort is a faithful model.  `insertBy le a l` walks past elements `b` with
`le b a` (so `a` lands after every element that may precede it, in
particular after all equals: stability) and `sortBy` folds from the left. -/

def insertBy (le : α → α → Bool) (a : α) : List α → List α
  | [] => [a]
  | b :: bs => if le b a then b :: insertBy le a bs else a :: b :: bs

def sortBy (le : α → α → Bool) (l : List α) : List α :=
  l.foldl (fun acc a => insertBy le a acc) []

/-- Lexicographic (code-point) comparison on character lists; Python string
order. -/
def charListLe : List Char → List Char → Bool
  | [], _ => true
  | _ :: _, [] => false
  | a :: as, b :: bs =>
    if a.toNat < b.toNat then true
    else if b.toNat < a.toNat then false
    else charListLe as bs

/-- Ascending order on strings (for Python `sorted` over a set of names). -/
def strLe (a b : String) : Bool := charListLe a.data b.data

/-- Model of `utils.mark_files_merged` (utils.py lines 82-94).  `sorted(set(...))`
is modelled as sorting the deduplicated union; set membership agrees. -/
def mark_files_merged (index : EthIndex) (filenames : List String) : EthIndex :=
  if filenames.isEmpty then index
  else
    let lows := filenames.filterMap fun n => (index.files.lookup n).map fun v => v.2
    let highs := filenames.filterMap fun n => (index.files.lookup n).map fun v => v.1
    let index :=
      if !lows.isEmpty && !highs.isEmpty then
        { index with
          mergedMin :=
            match index.mergedMin, pyMinList lows with
            | none, m => m
            | some c, some m => some (min c m)
            | some c, none => some c
          mergedMax :=
            match index.mergedMax, pyMaxList highs with
            | none, m => m
            | some c, some m => some (max c m)
            | some c, none => some c }
      else index
    { index with mergedFiles := sortBy strLe (index.mergedFiles ++ filenames).dedup }

/-! ## `fetch_eth._covering_range` (fetch_eth.py lines 135-161)

`_iter_index_entries` on the standard index dictionary takes the
`else`-branch of line 147 (the `files` value is a dict, not a list) and
yields the three top-level values, in dict order: the `files` dict, the
`global` dict and the `merged` dict.

`_extract_range` (lines 97-133) on those entries:
* on the `files` dict the probed keys `high/max_block/max/hi`,
  `low/min_block/min/lo`, `file/filename` are not chunk filenames, so no
  range is extracted (modelled as `none`);
* on the `global` and `merged` dicts the probes hit `max` and `min`; both
  must be ints (an unset `None` raises inside `int(...)` and is skipped),
  yielding the pair `(max, min)` — i.e. the ENVELOPE is read as if it were
  a recorded chunk range. -/

def extractRangeEnv (mn mx : Option Int) : Option (Int × Int) :=
  match mx, mn with
  | some M, some m => some (M, m)
  | _, _ => none

/-- The containment scan of `_covering_range` (fetch_eth.py lines 152-161):
first extractable entry whose `[low, high]` contains the block. -/
def firstCovering (block : Int) : List (Option (Int × Int)) → Option (Int × Int)
  | [] => none
  | e :: rest =>
    match e with
    | some (hi, lo) =>
      if decide (lo ≤ block) && decide (block ≤ hi) then some (hi, lo)
      else firstCovering block rest
    | none => firstCovering block rest

/-- Model of `fetch_eth._covering_range` on the standard index shape. -/
def covering_range (block : Int) (index : EthIndex) : Option (Int × Int) :=
  firstCovering block
    [none,
     extractRangeEnv index.globalMin index.globalMax,
     extractRangeEnv index.mergedMin index.mergedMax]

/-! ## EVM harvester loop (`fetch_eth.fetch_and_save_transactions`, lines 189-262)

Records are modelled by the two fields the loop inspects; the network is an
oracle indexed by the number of `_fetch_batch` calls made so far, returning
either a hard API error (`df is None` in the source) or a batch (possibly
empty).  Chunk writes always succeed (the `except` path of lines 254-256 is
local I/O failure, out of scope for the claims below); the `datetime` column
added at line 235 carries no information beyond `timeStamp` and is omitted. -/

structure EthRecord where
  blockNumber : Int
  timeStamp : Int
deriving DecidableEq

inductive FetchResult where
  | hard
  | batch (rows : List EthRecord)
deriving DecidableEq

structure EthState where
  index : EthIndex
  cursor : Int
  emptyBatches : Nat
  calls : Nat
  written : List (String × List EthRecord)
deriving DecidableEq

inductive EthStop where
  | boundary
  | emptyLimit
  | hardFail
  | belowZero
  | fuelOut
deriving DecidableEq

/-- Constant `MAX_EMPTY_BATCHES` (fetch_eth.py line 21). -/
def MAX_EMPTY_BATCHES : Nat := 3

/-- Model of `int(df['blockNumber'].min())` for a nonempty batch. -/
def minBlockOf : List EthRecord → Int
  | [] => 0
  | r :: rs => rs.foldl (fun m x => min m x.blockNumber) r.blockNumber

/-- Model of `int(df['timeStamp'].min())` for a nonempty batch. -/
def minTsOf : List EthRecord → Int
  | [] => 0
  | r :: rs => rs.foldl (fun m x => min m x.timeStamp) r.timeStamp

/-- One pass over a fetched batch (fetch_eth.py lines 215-261), after the
hard-error retry has produced a dataframe.  Returns `Sum.inl` when the loop
breaks and `Sum.inr` with the next state when it continues. -/
def ethProcessBatch (startTs : Int) (s : EthState) (rows : List EthRecord) :
    (EthState × EthStop) ⊕ EthState :=
  if rows.isEmpty then
    let s1 := { s with emptyBatches := s.emptyBatches + 1 }
    if MAX_EMPTY_BATCHES ≤ s1.emptyBatches then Sum.inl (s1, .emptyLimit)
    else Sum.inr { s1 with cursor := s1.cursor - 1 }
  else
    let oldestTsBatch := minTsOf rows
    if oldestTsBatch < startTs then
      let rows2 := rows.filter fun r => decide (startTs ≤ r.timeStamp)
      if rows2.isEmpty then Sum.inl (s, .boundary)
      else
        let lowest := minBlockOf rows2
        let fname := make_chunk_filename s.cursor lowest
        Sum.inl
          ({ s with
             written := s.written ++ [(fname, rows2)]
             index := update_index_with_file s.index fname
             cursor := lowest - 1 }, .boundary)
    else
      let lowest := minBlockOf rows
      let fname := make_chunk_filename s.cursor lowest
      Sum.inr
        { s with
          written := s.written ++ [(fname, rows)]
          index := update_index_with_file s.index fname
          cursor := lowest - 1 }

/-- The `while True` loop of `fetch_and_save_transactions` (lines 194-262),
with explicit fuel.  `s.calls` counts `_fetch_batch` calls (including the
one retry after a hard error, lines 207-214). -/
def ethLoop (api : Nat → FetchResult) (startTs : Int) : Nat → EthState → EthState × EthStop
  | 0, s => (s, .fuelOut)
  | fuel + 1, s =>
    match covering_range s.cursor s.index with
    | some (_, lo) =>
      let nextB := lo - 1
      if nextB < 0 then (s, .belowZero)
      else ethLoop api startTs fuel { s with cursor := nextB }
    | none =>
      match api s.calls with
      | .hard =>
        match api (s.calls + 1) with
        | .hard => ({ s with calls := s.calls + 2 }, .hardFail)
        | .batch rows =>
          match ethProcessBatch startTs { s with calls := s.calls + 2 } rows with
          | Sum.inl done => done
          | Sum.inr s2 => ethLoop api startTs fuel s2
      | .batch rows =>
        match ethProcessBatch startTs { s with calls := s.calls + 1 } rows with
        | Sum.inl done => done
        | Sum.inr s2 => ethLoop api startTs fuel s2

/-! ## Persistence crash model (`utils.save_index`, `fetch_tron._save_resume`)

A state file on disk is `dest` (the destination path) plus `tmp` (the
temporary file used by `save_index`), each `none` when absent, otherwise the
byte content written so far.  A save operation is modelled by the list of
every disk state observable if the process dies at any point during the
save; interrupted writes leave a prefix of the intended content. -/

structure DiskState where
  dest : Option (List Char)
  tmp : Option (List Char)
deriving DecidableEq

/-- Crash states of `utils.save_index` (utils.py lines 50-61):
`tempfile.mkstemp` creates the temp file, `json.dump` fills it
incrementally, `os.replace` atomically renames it over the destination.
(The `except` path, lines 58-61, unlinks the temp file and also leaves
`dest` untouched.) -/
def save_index_crash_states (old : Option (List Char)) (content : List Char) :
    List DiskState :=
  ((List.range (content.length + 1)).map fun k => ⟨old, some (content.take k)⟩)
    ++ [⟨some content, none⟩]

/-- Crash states of `fetch_tron._save_resume` (fetch_tron.py lines 53-56):
`open(RESUME_FILE, 'w')` truncates the destination in place, then
`json.dump` writes into it incrementally.  No temp file is involved. -/
def save_resume_crash_states (old : Option (List Char)) (content : List Char) :
    List DiskState :=
  ⟨old, none⟩ :: (List.range (content.length + 1)).map fun k => ⟨some (content.take k), none⟩

/-! ## `utils.load_index` normalization (utils.py lines 26-48)

`json.load` of a previously dumped index returns the same JSON value
(`json.dump` is deterministic and injective on values, and preserves dict
insertion order), so comparing serialized files is comparing the values.
The parsed value of an index file is modelled by the two shapes the loader
distinguishes: a legacy flat map (no top-level `files` key, filename to
`{'high','low'}`) and the modern object, whose `global` / `merged` /
`merged.files` members may individually be absent (`setdefault` targets). -/

structure JEntry where
  high : Int
  low : Int
deriving DecidableEq

inductive JIndexVal where
  | legacy (files : List (String × JEntry))
  | modern (files : List (String × JEntry))
      (globalv : Option (Option Int × Option Int))
      (mergedv : Option (Option Int × Option Int × Option (List String)))
deriving DecidableEq

/-- The normalization `load_index` applies to the parsed JSON value
(utils.py lines 33-46): legacy upgrade, then the three `setdefault`s. -/
def load_index_norm : JIndexVal → JIndexVal
  | .legacy files =>
    let lows := files.map fun kv => kv.2.low
    let highs := files.map fun kv => kv.2.high
    .modern files (some (pyMinList lows, pyMaxList highs)) (some (none, none, some []))
  | .modern files g m =>
    .modern files (some (g.getD (none, none)))
      (some
        (match m with
         | none => (none, none, some [])
         | some (mn, mx, mf) => (mn, mx, some (mf.getD []))))

/-! ## TRON value model

Fields of raw TronScan records are Python values that may be absent/`None`
(`.vnone`), ints, or strings.  Python truthiness: `None` and `0` and `''`
are falsy.  `int(x)` succeeds on ints and on integer literal strings. -/

inductive TVal where
  | vnone
  | vint (n : Int)
  | vstr (s : String)
deriving DecidableEq

def tvalTruthy : TVal → Bool
  | .vnone => false
  | .vint n => !(n == 0)
  | .vstr s => !(s == "")

/-- Python `a or b`. -/
def pyOrT (a b : TVal) : TVal := if tvalTruthy a then a else b

/-- Python `int(...)` on a string: optional sign plus ASCII digits
(whitespace/underscore forms do not occur in this data). -/
def pyIntOfString (s : String) : Option Int :=
  match s.data with
  | '-' :: rest => if pyIsDigit rest then some (-(digitsToNat rest : Int)) else none
  | cs => if pyIsDigit cs then some ((digitsToNat cs : Int)) else none

/-- Python `int(x)` with the `except: continue` convention: `none` means the
conversion raised. -/
def pyInt : TVal → Option Int
  | .vnone => none
  | .vint n => some n
  | .vstr s => pyIntOfString s

/-- Truthiness of an optional string field (`None`/absent and `''` falsy). -/
def strTruthy : Option String → Bool
  | none => false
  | some s => !(s == "")

/-- Python `a or b` on optional string fields. -/
def pyOrStr (a b : Option String) : Option String := if strTruthy a then a else b

/-! ## TRON records and `normalize_trc20_transfers` (tronscan.py lines 246-276)

A raw record keeps exactly the fields the harvester and normalizer read.
Every record is a dict (the `isinstance` guard at line 249 never fires on
this API's data).  The `quant`-derived `amount_usdt` and the ISO `datetime`
string (lines 267-273) are derived fields carrying no information used by
any claim and are omitted.  `retrieved_at` (fetch_tron.py line 189) is an
annotation that touches none of the fields read here and is omitted. -/

structure TronRec where
  transaction_id : Option String
  hash : Option String
  txID : Option String
  block : TVal
  blockNumber : TVal
  block_ts : TVal
  timestamp : TVal
  time : TVal
deriving DecidableEq

/-- The timestamp source chain of tronscan.py line 251:
`t.get('block_ts') or t.get('timestamp') or t.get('time')`. -/
def tron_ts_raw (t : TronRec) : TVal := pyOrT t.block_ts (pyOrT t.timestamp t.time)

structure NormRec where
  src : TronRec
  hash : Option String
  timestamp_ms : Int
  timeStamp : Int
deriving DecidableEq

/-- Normalization of one raw transfer (tronscan.py lines 249-274): `none`
means the record was dropped (timestamp not convertible, line 252-255). -/
def tron_norm_one (t : TronRec) : Option NormRec :=
  match pyInt (tron_ts_raw t) with
  | none => none
  | some ts =>
    let ts_ms := if ts < 1000000000000 then ts * 1000 else ts
    let ts_sec := Int.ediv ts_ms 1000
    let txid := pyOrStr t.transaction_id (pyOrStr t.hash t.txID)
    some
      { src := t
        hash := if strTruthy txid then txid else t.hash
        timestamp_ms := ts_ms
        timeStamp := ts_sec }

/-- Descending, stable comparison used by `norm.sort(key=..., reverse=True)`
(tronscan.py line 275). -/
def tsGe (a b : NormRec) : Bool := decide (b.timeStamp ≤ a.timeStamp)

/-- Model of `tronscan.normalize_trc20_transfers` (tronscan.py lines 246-276). -/
def normalize_trc20_transfers (raw : List TronRec) : List NormRec :=
  sortBy tsGe (raw.filterMap tron_norm_one)

/-! ## TRON block-bucket store (`fetch_tron._write_block_records`, lines 59-90)

`BLOCK_DIR` is an association list block-number to the JSON list stored in
that block's file.  Reads/writes always succeed (local I/O failure is out of
scope for the claims below). -/

/-- Generic Python dict insert (overwrite in place or append). -/
def upsert [DecidableEq κ] (l : List (κ × α)) (k : κ) (v : α) : List (κ × α) :=
  match l with
  | [] => [(k, v)]
  | (k', v') :: rest => if k' = k then (k, v) :: rest else (k', v') :: upsert rest k v

/-- Dedup key of a stored record (fetch_tron.py lines 71, 79):
`r.get('transaction_id') or r.get('hash')`. -/
def tronTid (r : TronRec) : Option String := pyOrStr r.transaction_id r.hash

/-- The append-dedup loop of `_write_block_records` (lines 78-85): skip a
record whose truthy tid is already seen, else append it (recording its tid
when truthy) and count it. -/
def tronAppendLoop : List TronRec → List TronRec → List String →
    List TronRec × List String × Nat
  | [], existing, seen => (existing, seen, 0)
  | r :: rs, existing, seen =>
    let tid := tronTid r
    if strTruthy tid && seen.contains (tid.getD "") then tronAppendLoop rs existing seen
    else
      let seen2 := if strTruthy tid then seen ++ [tid.getD ""] else seen
      let res := tronAppendLoop rs (existing ++ [r]) seen2
      (res.1, res.2.1, res.2.2 + 1)

/-- Sort key of fetch_tron.py line 88:
`x.get('block_ts', x.get('timestamp', x.get('time', 0)))` — `dict.get` with
a default falls through on ABSENT keys (not on falsy values).  The key is an
integer on this API's data. -/
def blockSortKey (r : TronRec) : Int :=
  match r.block_ts with
  | .vint n => n
  | .vstr _ => 0
  | .vnone =>
    match r.timestamp with
    | .vint n => n
    | .vstr _ => 0
    | .vnone =>
      match r.time with
      | .vint n => n
      | _ => 0

/-- Model of `fetch_tron._write_block_records` (lines 59-90) on one block file:
returns the updated store and the number of appended records. -/
def tron_write_block_records (store : List (Int × List TronRec)) (blk : Int)
    (records : List TronRec) : List (Int × List TronRec) × Nat :=
  if records.isEmpty then (store, 0)
  else
    let existing := (store.lookup blk).getD []
    let seen := existing.filterMap fun r =>
      let t := tronTid r
      if strTruthy t then some (t.getD "") else none
    let res := tronAppendLoop records existing seen
    if res.2.2 = 0 then (store, 0)
    else
      (upsert store blk (sortBy (fun a b => decide (blockSortKey b ≤ blockSortKey a)) res.1),
       res.2.2)

/-- Block id of a raw record (fetch_tron.py lines 197-201):
`r.get('block') or r.get('blockNumber')`, then `int(...)`;
a failing conversion skips the record. -/
def tron_block_of (r : TronRec) : Option Int := pyInt (pyOrT r.block r.blockNumber)

/-- Model of the `per_block.setdefault(blk, []).append(r)` accumulation (lines 195-202),
preserving first-seen block order. -/
def assocAppendRec (l : List (Int × List TronRec)) (k : Int) (r : TronRec) :
    List (Int × List TronRec) :=
  match l with
  | [] => [(k, [r])]
  | (k', rs) :: rest =>
    if k' = k then (k', rs ++ [r]) :: rest else (k', rs) :: assocAppendRec rest k r

def groupByBlock (page : List TronRec) : List (Int × List TronRec) :=
  page.foldl
    (fun acc r =>
      match tron_block_of r with
      | none => acc
      | some b => assocAppendRec acc b r)
    []

/-- Writing all per-block groups of one page (fetch_tron.py lines 205-224);
`new_tx_count` is the sum of per-block appended counts. -/
def tronWritePage (store : List (Int × List TronRec)) :
    List (Int × List TronRec) → List (Int × List TronRec) × Nat
  | [] => (store, 0)
  | (blk, recs) :: rest =>
    let w := tron_write_block_records store blk recs
    let r := tronWritePage w.1 rest
    (r.1, w.2 + r.2)

/-! ## TRON slice page loop (`fetch_tron.harvest_simple`, lines 178-258)

One slice's `while True` loop.  The oracle is indexed by the number of
fetches made so far; constants are the defaults of fetch_tron.py lines
27-34 (`TRON_PAGE_LIMIT=50`, `TRON_DUP_PAGES_BREAK=3`,
`TRON_MAX_PAGES_PER_WINDOW=4000`).  `dupCounter` carries
`resume['dup_counter']` (read at line 230, written at line 233). -/

def PAGE_LIMIT : Nat := 50

def DUP_PAGES_BREAK : Nat := 3

def MAX_PAGES_PER_WINDOW : Nat := 4000

structure TronSliceState where
  offset : Nat
  dupCounter : Nat
  store : List (Int × List TronRec)
  pagesInSlice : Nat
  totalSaved : Nat
  fetchCount : Nat
deriving DecidableEq

inductive TronStop where
  | emptyPage
  | dupBreak
  | maxPages
  | shortPage
  | fuelOut
deriving DecidableEq

def tronSlice (api : Nat → List TronRec) : Nat → TronSliceState → TronSliceState × TronStop
  | 0, s => (s, .fuelOut)
  | fuel + 1, s =>
    let page := api s.fetchCount
    let s := { s with fetchCount := s.fetchCount + 1 }
    if page.isEmpty then ({ s with offset := 0 }, .emptyPage)
    else
      let s := { s with pagesInSlice := s.pagesInSlice + 1 }
      if (normalize_trc20_transfers page).isEmpty then
        tronSlice api fuel { s with offset := s.offset + PAGE_LIMIT }
      else
        let w := tronWritePage s.store (groupByBlock page)
        let newTx := w.2
        let s := { s with store := w.1, totalSaved := s.totalSaved + newTx }
        let dup := if newTx = 0 then s.dupCounter + 1 else 0
        let s := { s with dupCounter := dup }
        if DUP_PAGES_BREAK ≤ dup then ({ s with offset := 0 }, .dupBreak)
        else if MAX_PAGES_PER_WINDOW ≤ s.pagesInSlice then ({ s with offset := 0 }, .maxPages)
        else if page.length < PAGE_LIMIT then ({ s with offset := 0 }, .shortPage)
        else tronSlice api fuel { s with offset := s.offset + PAGE_LIMIT }

/-! ## TronScan paging client (`tronscan._get`, `fetch_trc20_transfers_page`)

`_get` (tronscan.py lines 49-58) tries each configured base endpoint in
order (each base internally retried with backoff by `_get_single`, lines
25-47) and returns the first truthy parsed dict, else the empty dict `{}` —
which is also what `_get_single` returns on persistent HTTP failure,
non-JSON bodies, or exhausted retries.  A parsed dict is an association
list; the values that matter are lists of transfer records. -/

inductive TronJItem where
  | list (rs : List TronRec)
  | other
deriving DecidableEq

/-- Model of `tronscan._get`: first truthy (nonempty) response dict over the bases,
else `{}`. -/
def tron_get (responses : List (List (String × TronJItem))) : List (String × TronJItem) :=
  match responses with
  | [] => []
  | r :: rest => if r.isEmpty then tron_get rest else r

def lookupListKey (data : List (String × TronJItem)) (k : String) : Option (List TronRec) :=
  match data.lookup k with
  | some (.list rs) => some rs
  | _ => none

/-- Transfer-list extraction of `fetch_trc20_transfers_page` (tronscan.py
lines 141-146): first of the four candidate keys holding a list, else `[]`. -/
def tron_extract_transfers (data : List (String × TronJItem)) : List TronRec :=
  match lookupListKey data "token_transfers" with
  | some rs => rs
  | none =>
    match lookupListKey data "trc20_transfers" with
    | some rs => rs
    | none =>
      match lookupListKey data "trc20Transfers" with
      | some rs => rs
      | none =>
        match lookupListKey data "data" with
        | some rs => rs
        | none => []

/-! ## Merging (`src/merge.py`, `src/merge_eth.py`)

A CSV row is modelled by a representative of the full 20-column record:
the dedup key `hash` plus one mutable auxiliary column (`confirmations`
changes between fetches of the same transaction).  `pl.concat` is list
concatenation; `pl.unique()` keeps one copy of each DISTINCT FULL ROW (its
output order is unspecified; `List.dedup` is one such choice — the claims
below depend only on membership, duplication and count, which every choice
shares).  Files are `(name, rows)` with all standard columns present
(a file with missing columns is skipped by merge_eth.py lines 64-67 and is
not modelled). -/

structure MRow where
  hash : String
  confirmations : Int
deriving DecidableEq

/-- Model of `merge.merge_csv_files` (merge.py lines 5-66): concatenate all chunk
files, deduplicate on full-record equality, write the output (`none` when
there are no files: nothing is written). -/
def merge_csv_files_model (files : List (List MRow)) : Option (List MRow) :=
  if files.isEmpty then none else some (files.foldr (· ++ ·) []).dedup

def MERGED_FILE : String := "transactions_eth.csv"

/-- Descending tuple order of `candidates.sort(reverse=True)`
(merge_eth.py line 37): lexicographic on `(high, low, name)`. -/
def candGe (a b : Int × Int × String × List MRow) : Bool :=
  decide (b.1 < a.1) ||
    (a.1 == b.1 &&
      (decide (b.2.1 < a.2.1) || (a.2.1 == b.2.1 && strLe b.2.2.1 a.2.2.1)))

/-- Model of `merge_eth._iter_new_chunk_files` (merge_eth.py lines 23-38). -/
def iter_new_chunk_files (dir : List (String × List MRow)) (index : EthIndex) :
    List (Int × Int × String × List MRow) :=
  sortBy candGe
    (dir.filterMap fun nf =>
      if nf.1 = MERGED_FILE then none
      else if nf.1 ∈ index.mergedFiles then none
      else
        match parse_block_range_from_filename nf.1 with
        | some (hi, lo) => some (hi, lo, nf.1, nf.2)
        | none => none)

def BATCH_SAVE_INTERVAL : Nat := 100

/-- The chunk-processing loop of `merge_eth.merge_csv_files` (lines 60-82):
append each pending chunk to the output, record it in the per-file index,
and mark a batch merged every `BATCH_SAVE_INTERVAL` files. -/
def processChunks : EthIndex → List MRow → List String → Nat →
    List (Int × Int × String × List MRow) → EthIndex × List MRow × List String
  | idx, out, processed, _, [] => (idx, out, processed)
  | idx, out, processed, i, c :: rest =>
    let out2 := out ++ c.2.2.2
    let processed2 := processed ++ [c.2.2.1]
    let idx2 := update_index_with_file idx c.2.2.1
    if i % BATCH_SAVE_INTERVAL = 0 then
      processChunks (mark_files_merged idx2 processed2) out2 [] (i + 1) rest
    else processChunks idx2 out2 processed2 (i + 1) rest

/-- Model of `merge_eth.merge_csv_files` (lines 40-89): the on-disk output is the
`out` accumulator; `index` is the loaded coverage index. -/
def mergeEthRun (dir : List (String × List MRow)) (index : EthIndex) (out : List MRow) :
    EthIndex × List MRow :=
  let newChunks := iter_new_chunk_files dir index
  if newChunks.isEmpty then (index, out)
  else
    let res := processChunks index out [] 1 newChunks
    (if res.2.2.isEmpty then res.1 else mark_files_merged res.1 res.2.2, res.2.1)

/-! ## Proof-internal definitions and concrete witness fixtures -/

/-- Comparison `keyGe key a b = (key b ≤ key a)`: the descending order used
with `sortBy` for an integer sort key. -/
def keyGe {α : Type} (key : α → Int) (a b : α) : Bool := decide (key b ≤ key a)

/-- Invariant of the EVM loop's empty-batch counter: it never decreases, and
once it would reach `MAX_EMPTY_BATCHES` the loop has stopped with the
empty-limit reason. -/
def ecInv (s : EthState) (res : EthState × EthStop) : Prop :=
  s.emptyBatches ≤ res.1.emptyBatches ∧
  (s.emptyBatches < MAX_EMPTY_BATCHES →
    res.1.emptyBatches ≤ MAX_EMPTY_BATCHES ∧
    (res.1.emptyBatches = MAX_EMPTY_BATCHES → res.2 = EthStop.emptyLimit))

/-- Final marking step of `merge_eth.merge_csv_files` (lines 85-87). -/
def finishMerge (res : EthIndex × List MRow × List String) : EthIndex :=
  if res.2.2.isEmpty then res.1 else mark_files_merged res.1 res.2.2

/-- Witness fixture: a batch spanning the boundary timestamp 10. -/
def wApi3 : Nat → FetchResult := fun _ => .batch [⟨10, 5⟩, ⟨9, 15⟩]

def wS3 : EthState := ⟨empty_index, 10, 0, 0, []⟩

/-- Witness fixture: an always-failing EVM API. -/
def wApi8 : Nat → FetchResult := fun _ => .hard

def wS8 : EthState := ⟨empty_index, 10, 0, 0, []⟩

/-- Witness fixture: empty, non-empty, empty, empty batches in sequence. -/
def wApi10 : Nat → FetchResult := fun n =>
  match n with
  | 1 => .batch [⟨8, 100⟩]
  | _ => .batch []

def wS10 : EthState := ⟨empty_index, 10, 0, 0, []⟩

/-- Witness fixture: a TRON transfer whose tid `t1` is already stored for
block 5, so a page of it appends nothing. -/
def wGoodRec : TronRec := ⟨some "t1", none, none, .vint 5, .vnone, .vint 111, .vnone, .vnone⟩

/-- Counterexample fixture: a TRON record with no usable timestamp field
(normalization drops it) but a stored hash and block. -/
def wBadRec : TronRec := ⟨none, some "t1", none, .vint 5, .vnone, .vnone, .vnone, .vnone⟩

def wS7 : TronSliceState := ⟨100, 2, [(5, [wGoodRec])], 0, 0, 0⟩

/-- Witness fixtures: two normalizable transfers (one with a millisecond
timestamp) and one dropped record. -/
def wR1 : TronRec := ⟨some "a", none, none, .vnone, .vnone, .vint 1700000000000, .vnone, .vnone⟩

def wR2 : TronRec := ⟨some "b", none, none, .vnone, .vnone, .vint 1700000001, .vnone, .vnone⟩

def wDir6 : List (String × List MRow) := [("10_9.csv", [⟨"a", 1⟩]), ("8_7.csv", [⟨"b", 2⟩])]

/-! ## Supporting lemmas -/


theorem ecInv_of_eq (s : EthState) (res : EthState × EthStop)
    (h : res.1.emptyBatches = s.emptyBatches) : ecInv s res := by
  refine ⟨h ▸ le_refl _, fun hlt => ⟨h ▸ le_of_lt hlt, fun he => ?_⟩⟩
  exact absurd (h ▸ he) (Nat.ne_of_lt (h ▸ hlt))

theorem ecInv_congr (s s' : EthState) (res : EthState × EthStop)
    (hi : ecInv s' res) (h : s'.emptyBatches = s.emptyBatches) : ecInv s res := by
  obtain ⟨a, b⟩ := hi
  rw [h] at a b
  exact ⟨a, b⟩

theorem ethProcessBatch_ecInv (api : Nat → FetchResult) (T : Int) (n : Nat)
    (ih : ∀ s : EthState, ecInv s (ethLoop api T n s))
    (s2 : EthState) (rows : List EthRecord) :
    ecInv s2
      (match ethProcessBatch T s2 rows with
       | Sum.inl done => done
       | Sum.inr s3 => ethLoop api T n s3) := by
  unfold ethProcessBatch
  by_cases hrows : rows.isEmpty
  · simp only [hrows, if_true]
    by_cases h3 : MAX_EMPTY_BATCHES ≤ s2.emptyBatches + 1
    · simp only [if_pos h3]
      exact ⟨Nat.le_succ _, fun hlt => ⟨Nat.succ_le_of_lt hlt, fun _ => rfl⟩⟩
    · simp only [if_neg h3]
      have hrec := ih { s2 with emptyBatches := s2.emptyBatches + 1, cursor := s2.cursor - 1 }
      obtain ⟨ha, hb⟩ := hrec
      refine ⟨le_trans (Nat.le_succ _) ha, fun hlt => ?_⟩
      exact hb (lt_of_not_ge h3)
  · simp only [Bool.not_eq_true] at hrows
    simp only [hrows, Bool.false_eq_true, if_false]
    by_cases hold : minTsOf rows < T
    · simp only [if_pos hold]
      by_cases hf : (rows.filter fun r => decide (T ≤ r.timeStamp)).isEmpty
      · simp only [hf, if_true]
        exact ecInv_of_eq _ _ rfl
      · simp only [hf, Bool.false_eq_true, if_false]
        exact ecInv_of_eq _ _ rfl
  
    · simp only [if_neg hold]
      exact ecInv_congr _ _ _ (ih _) rfl

theorem ethLoop_ecInv (api : Nat → FetchResult) (T : Int) :
    ∀ (fuel : Nat) (s : EthState), ecInv s (ethLoop api T fuel s) := by
  intro fuel
  induction fuel with
  | zero => intro s; exact ecInv_of_eq _ _ rfl
  | succ n ih =>
    intro s
    simp only [ethLoop]
    cases hcov : covering_range s.cursor s.index with
    | some r =>
      obtain ⟨hi, lo⟩ := r
      by_cases hneg : lo - 1 < 0
      · simp only [if_pos hneg]
        exact ecInv_of_eq _ _ rfl
      · simp only [if_neg hneg]
        exact ecInv_congr _ _ _ (ih _) rfl
    | none =>
      cases hapi : api s.calls with
      | hard =>
        cases hapi2 : api (s.calls + 1) with
        | hard => exact ecInv_of_eq _ _ rfl
        | batch rows => exact ecInv_congr _ _ _ (ethProcessBatch_ecInv api T n ih _ rows) rfl
      | batch rows => exact ecInv_congr _ _ _ (ethProcessBatch_ecInv api T n ih _ rows) rfl

theorem tron_get_all_failed (responses : List (List (String × TronJItem)))
    (h : ∀ r ∈ responses, r = []) : tron_get responses = [] := by
  induction responses with
  | nil => rfl
  | cons a as ihh =>
    have ha : a = [] := h a (List.mem_cons_self _ _)
    subst ha
    simp only [tron_get, List.isEmpty_nil, if_true]
    exact ihh fun r hr => h r (List.mem_cons_of_mem _ hr)

theorem mem_insertBy {α : Type} (le : α → α → Bool) (a x : α) (l : List α)
    (h : x ∈ insertBy le a l) : x = a ∨ x ∈ l := by
  induction l with
  | nil => simpa [insertBy] using h
  | cons b bs ihh =>
    by_cases hb : le b a
    · simp only [insertBy, hb, if_true, List.mem_cons] at h
      rcases h with h | h
      · exact Or.inr (h ▸ List.mem_cons_self _ _)
      · rcases ihh h with h' | h'
        · exact Or.inl h'
        · exact Or.inr (List.mem_cons_of_mem _ h')
    · simp only [insertBy, hb, Bool.false_eq_true, if_false, List.mem_cons] at h
      rcases h with h | h | h
      · exact Or.inl h
      · exact Or.inr (h ▸ List.mem_cons_self _ _)
      · exact Or.inr (List.mem_cons_of_mem _ h)

theorem insertBy_sorted {α : Type} (key : α → Int) (a : α) (l : List α)
    (hs : l.Pairwise fun x y => key y ≤ key x) :
    (insertBy (keyGe key) a l).Pairwise fun x y => key y ≤ key x := by
  induction l with
  | nil => simp [insertBy]
  | cons b bs ihh =>
    rcases List.pairwise_cons.mp hs with ⟨hb, hbs⟩
    by_cases hba : keyGe key b a
    · simp only [insertBy, hba, if_true]
      refine List.pairwise_cons.mpr ⟨?_, ihh hbs⟩
      intro x hx
      rcases mem_insertBy _ _ _ _ hx with rfl | hx'
      · exact of_decide_eq_true hba
      · exact hb x hx'
    · simp only [insertBy, hba, Bool.false_eq_true, if_false]
      have hnle : ¬ key a ≤ key b := by simpa [keyGe] using hba
      have hab : key b ≤ key a := le_of_not_le hnle
      refine List.pairwise_cons.mpr ⟨?_, hs⟩
      intro x hx
      rcases List.mem_cons.mp hx with rfl | hx'
      · exact hab
      · exact le_trans (hb x hx') hab

theorem filter_eq_nil_of_lt {α : Type} (key : α → Int) (k : Int) (l : List α)
    (h : ∀ x ∈ l, key x < k) :
    l.filter (fun x => decide (key x = k)) = [] := by
  induction l with
  | nil => rfl
  | cons b bs ihh =>
    have hb : ¬ key b = k := ne_of_lt (h b (List.mem_cons_self _ _))
    simp only [List.filter_cons, decide_eq_true_eq]
    rw [if_neg hb]
    exact ihh fun x hx => h x (List.mem_cons_of_mem _ hx)

theorem insertBy_filter_key {α : Type} (key : α → Int) (k : Int) (a : α) (l : List α)
    (hs : l.Pairwise fun x y => key y ≤ key x) :
    (insertBy (keyGe key) a l).filter (fun x => decide (key x = k)) =
      if key a = k then (l.filter fun x => decide (key x = k)) ++ [a]
      else l.filter fun x => decide (key x = k) := by
  induction l with
  | nil =>
    by_cases hk : key a = k <;> simp [insertBy, List.filter_cons, hk]
  | cons b bs ihh =>
    rcases List.pairwise_cons.mp hs with ⟨hb, hbs⟩
    by_cases hba : keyGe key b a
    · simp only [insertBy, hba, if_true, List.filter_cons]
      rw [ihh hbs]
      by_cases hbk : key b = k <;> by_cases hak : key a = k <;>
        simp [hbk, hak, List.filter_cons]
    · simp only [insertBy, hba, Bool.false_eq_true, if_false, List.filter_cons]
      have hab : key b < key a := lt_of_not_ge (by simpa [keyGe] using hba)
      by_cases hak : key a = k
      · have hbk : ¬ key b = k := ne_of_lt (hak ▸ hab)
        have hfbs : bs.filter (fun x => decide (key x = k)) = [] := by
          refine filter_eq_nil_of_lt key k _ ?_
          intro x hx
          exact lt_of_le_of_lt (hb x hx) (hak ▸ hab)
        simp [hak, hbk, hfbs]
      · simp [hak]

theorem insertBy_length {α : Type} (le : α → α → Bool) (a : α) (l : List α) :
    (insertBy le a l).length = l.length + 1 := by
  induction l with
  | nil => rfl
  | cons b bs ihh =>
    by_cases hb : le b a <;> simp [insertBy, hb, ihh]

theorem sortBy_go_spec {α : Type} (key : α → Int) (l : List α) :
    ∀ acc : List α, acc.Pairwise (fun x y => key y ≤ key x) →
    (l.foldl (fun ac a => insertBy (keyGe key) a ac) acc).Pairwise (fun x y => key y ≤ key x) ∧
    (∀ k : Int,
      (l.foldl (fun ac a => insertBy (keyGe key) a ac) acc).filter (fun x => decide (key x = k)) =
        (acc.filter fun x => decide (key x = k)) ++ (l.filter fun x => decide (key x = k))) ∧
    (l.foldl (fun ac a => insertBy (keyGe key) a ac) acc).length = acc.length + l.length := by
  induction l with
  | nil => exact fun acc hs => ⟨hs, fun k => by simp, by simp⟩
  | cons a l ihl =>
    intro acc hs
    have hs' := insertBy_sorted key a acc hs
    obtain ⟨s1, s2, s3⟩ := ihl (insertBy (keyGe key) a acc) hs'
    refine ⟨s1, fun k => ?_, ?_⟩
    · have := s2 k
      simp only [List.foldl_cons] at this ⊢
      rw [this, insertBy_filter_key key k a acc hs, List.filter_cons]
      by_cases hak : key a = k
      · simp [hak]
      · simp [hak]
    · simp only [List.foldl_cons] at s3 ⊢
      rw [s3, insertBy_length, List.length_cons]
      omega

theorem sortBy_key_spec {α : Type} (key : α → Int) (l : List α) :
    (sortBy (keyGe key) l).Pairwise (fun x y => key y ≤ key x) ∧
    (∀ k : Int, (sortBy (keyGe key) l).filter (fun x => decide (key x = k)) =
      l.filter fun x => decide (key x = k)) ∧
    (sortBy (keyGe key) l).length = l.length := by
  obtain ⟨s1, s2, s3⟩ := sortBy_go_spec key l [] (List.Pairwise.nil)
  exact ⟨s1, fun k => by simpa using s2 k, by simpa using s3⟩

theorem tsGe_eq_keyGe : tsGe = keyGe (fun r : NormRec => r.timeStamp) := rfl

theorem filterMap_drop_count (raw : List TronRec) :
    (raw.filterMap tron_norm_one).length
      + (raw.filter fun t => (pyInt (tron_ts_raw t)).isNone).length = raw.length := by
  induction raw with
  | nil => rfl
  | cons t ts ihh =>
    cases h : pyInt (tron_ts_raw t) with
    | none =>
      have hn : tron_norm_one t = none := by unfold tron_norm_one; rw [h]
      simp only [List.filterMap_cons, hn, List.filter_cons, h, Option.isNone_none,
        decide_eq_true_eq, if_pos trivial, List.length_cons]
      omega
    | some v =>
      have hn : tron_norm_one t ≠ none := by unfold tron_norm_one; rw [h]; simp
      cases hr : tron_norm_one t with
      | none => exact absurd hr hn
      | some r =>
        simp only [List.filterMap_cons, hr, List.filter_cons, h, Option.isNone_some,
          List.length_cons]
        simp only [decide_eq_true_eq, Bool.false_eq_true, if_false]
        omega

theorem foldl_mergeMinO_none (l : List Int) : List.foldl mergeMinO none l = pyMinList l := by
  cases l with
  | nil => rfl
  | cons x xs =>
    show List.foldl mergeMinO (some x) xs = some (xs.foldl min x)
    induction xs generalizing x with
    | nil => rfl
    | cons y ys ihy => exact ihy (min x y)

theorem foldl_mergeMaxO_none (l : List Int) : List.foldl mergeMaxO none l = pyMaxList l := by
  cases l with
  | nil => rfl
  | cons x xs =>
    show List.foldl mergeMaxO (some x) xs = some (xs.foldl max x)
    induction xs generalizing x with
    | nil => rfl
    | cons y ys ihy => exact ihy (max x y)

theorem foldl_update_envelope (ranges : List (Int × Int)) :
    ∀ idx : EthIndex,
      (∀ p ∈ ranges, parse_block_range_from_filename (make_chunk_filename p.1 p.2) = some p) →
      (List.foldl update_index_with_file idx
          (ranges.map fun p => make_chunk_filename p.1 p.2)).globalMin
        = List.foldl mergeMinO idx.globalMin (ranges.map fun p => p.2) ∧
      (List.foldl update_index_with_file idx
          (ranges.map fun p => make_chunk_filename p.1 p.2)).globalMax
        = List.foldl mergeMaxO idx.globalMax (ranges.map fun p => p.1) := by
  induction ranges with
  | nil => exact fun idx _ => ⟨rfl, rfl⟩
  | cons p ps ihp =>
    intro idx hp
    have hparse := hp p (List.mem_cons_self _ _)
    have hupd : (update_index_with_file idx (make_chunk_filename p.1 p.2)).globalMin
        = mergeMinO idx.globalMin p.2 ∧
        (update_index_with_file idx (make_chunk_filename p.1 p.2)).globalMax
        = mergeMaxO idx.globalMax p.1 := by
      unfold update_index_with_file
      rw [hparse]
      exact ⟨rfl, rfl⟩
    have hrest := ihp (update_index_with_file idx (make_chunk_filename p.1 p.2))
      fun q hq => hp q (List.mem_cons_of_mem _ hq)
    simp only [List.map_cons, List.foldl_cons]
    constructor
    · rw [hrest.1, hupd.1]
    · rw [hrest.2, hupd.2]

theorem mem_insertBy_iff {α : Type} (le : α → α → Bool) (a x : α) (l : List α) :
    x ∈ insertBy le a l ↔ x = a ∨ x ∈ l := by
  induction l with
  | nil => simp [insertBy]
  | cons b bs ihh =>
    by_cases hb : le b a
    · simp only [insertBy, hb, if_true, List.mem_cons, ihh]
      tauto
    · simp only [insertBy, hb, Bool.false_eq_true, if_false, List.mem_cons]

theorem mem_sortBy_go {α : Type} (le : α → α → Bool) (x : α) (l : List α) :
    ∀ acc : List α, (x ∈ l.foldl (fun ac a => insertBy le a ac) acc ↔ x ∈ acc ∨ x ∈ l) := by
  induction l with
  | nil => intro acc; simp
  | cons a as ihl =>
    intro acc
    simp only [List.foldl_cons, ihl, mem_insertBy_iff, List.mem_cons]
    tauto

theorem mem_sortBy {α : Type} (le : α → α → Bool) (x : α) (l : List α) :
    x ∈ sortBy le l ↔ x ∈ l := by
  unfold sortBy
  rw [mem_sortBy_go]
  simp

theorem mark_files_merged_adds (idx : EthIndex) (names : List String) (n : String)
    (h : n ∈ names) : n ∈ (mark_files_merged idx names).mergedFiles := by
  have hne : names.isEmpty = false := by cases names; cases h; rfl
  unfold mark_files_merged
  simp only [hne, Bool.false_eq_true, if_false]
  split <;>
    exact (mem_sortBy _ _ _).mpr (List.mem_dedup.mpr (List.mem_append_right _ h))

theorem mark_files_merged_keeps (idx : EthIndex) (names : List String) (n : String)
    (h : n ∈ idx.mergedFiles) : n ∈ (mark_files_merged idx names).mergedFiles := by
  unfold mark_files_merged
  by_cases hne : names.isEmpty
  · simp only [hne, if_true]
    exact h
  · simp only [hne, Bool.false_eq_true, if_false]
    split <;>
      exact (mem_sortBy _ _ _).mpr (List.mem_dedup.mpr (List.mem_append_left _ h))

theorem update_index_keeps_merged (idx : EthIndex) (f : String) :
    (update_index_with_file idx f).mergedFiles = idx.mergedFiles := by
  unfold update_index_with_file
  cases parse_block_range_from_filename f with
  | none => rfl
  | some p => cases p; rfl

theorem finishMerge_mono (res : EthIndex × List MRow × List String) (n : String)
    (h : n ∈ res.1.mergedFiles) : n ∈ (finishMerge res).mergedFiles := by
  unfold finishMerge
  split
  · exact h
  · exact mark_files_merged_keeps _ _ _ h

theorem processChunks_mono (chunks : List (Int × Int × String × List MRow)) :
    ∀ (idx : EthIndex) (out : List MRow) (proc : List String) (i : Nat) (n : String),
      n ∈ idx.mergedFiles →
      n ∈ (finishMerge (processChunks idx out proc i chunks)).mergedFiles := by
  induction chunks with
  | nil =>
    intro idx out proc i n h
    exact finishMerge_mono _ _ h
  | cons c rest ih =>
    intro idx out proc i n h
    unfold processChunks
    split
    · apply ih
      apply mark_files_merged_keeps
      rw [update_index_keeps_merged]
      exact h
    · apply ih
      rw [update_index_keeps_merged]
      exact h

theorem processChunks_covers (chunks : List (Int × Int × String × List MRow)) :
    ∀ (idx : EthIndex) (out : List MRow) (proc : List String) (i : Nat) (n : String),
      (n ∈ proc ∨ n ∈ chunks.map fun c => c.2.2.1) →
      n ∈ (finishMerge (processChunks idx out proc i chunks)).mergedFiles := by
  induction chunks with
  | nil =>
    intro idx out proc i n h
    rcases h with h | h
    · have hne : proc.isEmpty = false := by cases proc; cases h; rfl
      unfold processChunks finishMerge
      simp only [hne, Bool.false_eq_true, if_false]
      exact mark_files_merged_adds _ _ _ h
    · cases h
  | cons c rest ih =>
    intro idx out proc i n h
    have hsplit : n ∈ proc ++ [c.2.2.1] ∨ n ∈ rest.map fun c => c.2.2.1 := by
      rcases h with h | h
      · exact Or.inl (List.mem_append_left _ h)
      · rw [List.map_cons] at h
        rcases List.mem_cons.mp h with h' | h'
        · exact Or.inl (List.mem_append_right _ (h' ▸ List.mem_singleton.mpr rfl))
        · exact Or.inr h'
    unfold processChunks
    split
    · rcases hsplit with hp | hr
      · exact processChunks_mono rest _ _ _ _ _ (mark_files_merged_adds _ _ _ hp)
      · exact ih _ _ _ _ _ (Or.inr hr)
    · rcases hsplit with hp | hr
      · exact ih _ _ _ _ _ (Or.inl hp)
      · exact ih _ _ _ _ _ (Or.inr hr)

theorem iter_mem_of_candidate (dir : List (String × List MRow)) (idx : EthIndex)
    (name : String) (rows : List MRow) (hi lo : Int)
    (hdir : (name, rows) ∈ dir) (hnm : ¬ name = MERGED_FILE) (hnmem : name ∉ idx.mergedFiles)
    (hparse : parse_block_range_from_filename name = some (hi, lo)) :
    (hi, lo, name, rows) ∈ iter_new_chunk_files dir idx := by
  unfold iter_new_chunk_files
  rw [mem_sortBy]
  exact List.mem_filterMap.mpr ⟨(name, rows), hdir, by simp [hnm, hnmem, hparse]⟩

theorem iter_empty_of_all_merged (dir : List (String × List MRow)) (idx : EthIndex)
    (h : ∀ nf ∈ dir, nf.1 ≠ MERGED_FILE → (parse_block_range_from_filename nf.1).isSome →
      nf.1 ∈ idx.mergedFiles) :
    iter_new_chunk_files dir idx = [] := by
  unfold iter_new_chunk_files
  have hfm : (dir.filterMap fun nf =>
      if nf.1 = MERGED_FILE then none
      else if nf.1 ∈ idx.mergedFiles then none
      else
        match parse_block_range_from_filename nf.1 with
        | some (hi, lo) => some (hi, lo, nf.1, nf.2)
        | none => none) = [] := by
    rw [List.filterMap_eq_nil_iff]
    intro nf hnf
    by_cases h1 : nf.1 = MERGED_FILE
    · simp [h1]
    · by_cases h2 : nf.1 ∈ idx.mergedFiles
      · simp [h1, h2]
      · cases hp : parse_block_range_from_filename nf.1 with
        | none => simp [h1, h2, hp]
        | some p => exact absurd (h nf hnf h1 (by rw [hp]; rfl)) h2
  rw [hfm]
  rfl

theorem mergeEthRun_of_iter_empty (dir : List (String × List MRow)) (idx : EthIndex)
    (out : List MRow) (h : iter_new_chunk_files dir idx = []) :
    mergeEthRun dir idx out = (idx, out) := by
  unfold mergeEthRun
  rw [h]
  rfl

/-! ## Claims -/

/-- C1: the claim states that the coverage query (`is_block_in_index` /
`_covering_range`) reports covered exactly when some recorded entry's
inclusive `[low, high]` range contains the block — in particular a block
inside the global envelope but in a gap between entries is NOT covered.
`utils.is_block_in_index` behaves that way, but `fetch_eth._covering_range`
iterates the top-level values of the index dict and extracts the `global`
envelope `{'min','max'}` itself as if it were a recorded range: on an index
with entries `[900,1000]` and `[400,500]` (envelope `[400,1000]`), the gap
block `700` is reported not covered by `is_block_in_index` but covered with
range `(1000, 400)` by `_covering_range`. -/
theorem c1_covering_range_reads_envelope_at_gap_block :
    is_block_in_index 700
        ⟨[("1000_900.csv", (1000, 900)), ("500_400.csv", (500, 400))],
          some 400, some 1000, none, none, []⟩ = false ∧
    covering_range 700
        ⟨[("1000_900.csv", (1000, 900)), ("500_400.csv", (500, 400))],
          some 400, some 1000, none, none, []⟩ = some (1000, 400) := by
  decide

/-- C2 counterexample: `fetch_tron._save_resume` opens the resume file with
mode `w` (truncating it in place) and then writes; a crash mid-write leaves
on disk a destination content that is neither the old state nor the new
state — a partially-written file, contradicting the claim that EVERY
persistence of index and resume state is an atomic replace. -/
theorem c2_counterexample_resume_save_partial_state :
    (⟨some ['w'], none⟩ : DiskState) ∈
        save_resume_crash_states (some ['o', 'l', 'd']) ['w', 'i', 'n'] ∧
    (⟨some ['w'], none⟩ : DiskState).dest ≠ some ['o', 'l', 'd'] ∧
    (⟨some ['w'], none⟩ : DiskState).dest ≠ some ['w', 'i', 'n'] := by
  decide

/-- C2 (amended): persistence of the on-disk index (`utils.save_index`) is
an atomic replace — at every crash point the destination holds either the
old content or the complete new content, so a crash during an index save
loses at most the latest update.  The TRON resume save, by contrast, writes
the destination in place and has no such guarantee (see the
counterexample). -/
theorem c2_amended_index_save_atomic (old : Option (List Char)) (content : List Char)
    (st : DiskState) (h : st ∈ save_index_crash_states old content) :
    st.dest = old ∨ st.dest = some content := by
  unfold save_index_crash_states at h
  rcases List.mem_append.mp h with h | h
  · rcases List.mem_map.mp h with ⟨k, -, rfl⟩
    exact Or.inl rfl
  · rw [List.mem_singleton.mp h]
    exact Or.inr rfl

theorem c2_amended_index_save_atomic_witness :
    ((⟨some ['o'], some ['n']⟩ : DiskState) ∈
        save_index_crash_states (some ['o']) ['n', 'e', 'w']) ∧
    ((⟨some ['o'], some ['n']⟩ : DiskState).dest = some ['o'] ∨
      (⟨some ['o'], some ['n']⟩ : DiskState).dest = some ['n', 'e', 'w']) :=
  ⟨by decide, c2_amended_index_save_atomic (some ['o']) ['n', 'e', 'w'] _ (by decide)⟩

/-- C3: in the EVM harvester loop, a fetched non-empty batch whose oldest
timestamp is below the start boundary `T` is trimmed to the records with
timestamp at or above `T`; if records remain, exactly that filtered chunk is
written and the loop stops (reason `boundary`) after exactly this one fetch;
if the filter empties the batch, the loop stops without writing. -/
theorem c3_boundary_filter_and_stop (api : Nat → FetchResult) (T : Int) (fuel : Nat)
    (s : EthState) (rows : List EthRecord)
    (hcov : covering_range s.cursor s.index = none)
    (hapi : api s.calls = .batch rows)
    (hne : rows ≠ [])
    (hold : minTsOf rows < T) :
    (rows.filter (fun r => decide (T ≤ r.timeStamp)) ≠ [] →
      ethLoop api T (fuel + 1) s =
        ({ s with
            calls := s.calls + 1
            written := s.written ++
              [(make_chunk_filename s.cursor
                  (minBlockOf (rows.filter fun r => decide (T ≤ r.timeStamp))),
                rows.filter fun r => decide (T ≤ r.timeStamp))]
            index := update_index_with_file s.index
              (make_chunk_filename s.cursor
                (minBlockOf (rows.filter fun r => decide (T ≤ r.timeStamp))))
            cursor := minBlockOf (rows.filter fun r => decide (T ≤ r.timeStamp)) - 1 },
          .boundary)) ∧
    (rows.filter (fun r => decide (T ≤ r.timeStamp)) = [] →
      ethLoop api T (fuel + 1) s = ({ s with calls := s.calls + 1 }, .boundary)) := by
  obtain ⟨r0, rs0, rfl⟩ := List.exists_cons_of_ne_nil hne
  constructor <;> intro hf
  · have hfe : ((r0 :: rs0).filter fun r => decide (T ≤ r.timeStamp)).isEmpty = false := by
      cases hfilter : (r0 :: rs0).filter fun r => decide (T ≤ r.timeStamp) with
      | nil => exact absurd hfilter hf
      | cons a as => rfl
    simp only [ethLoop, hcov, hapi, ethProcessBatch, List.isEmpty_cons, hold, if_true, hfe,
      Bool.false_eq_true, if_false, if_pos hold]
  · simp [ethLoop, hcov, hapi, ethProcessBatch, if_pos hold, hf]

theorem c3_boundary_filter_and_stop_witness :
    covering_range wS3.cursor wS3.index = none ∧
    wApi3 wS3.calls = .batch [⟨10, 5⟩, ⟨9, 15⟩] ∧
    ([⟨10, 5⟩, ⟨9, 15⟩] : List EthRecord) ≠ [] ∧
    minTsOf [⟨10, 5⟩, ⟨9, 15⟩] < 10 ∧
    ((([⟨10, 5⟩, ⟨9, 15⟩] : List EthRecord).filter
          (fun r => decide ((10 : Int) ≤ r.timeStamp)) ≠ [] →
      ethLoop wApi3 10 (3 + 1) wS3 =
        ({ wS3 with
            calls := wS3.calls + 1
            written := wS3.written ++
              [(make_chunk_filename wS3.cursor
                  (minBlockOf (([⟨10, 5⟩, ⟨9, 15⟩] : List EthRecord).filter
                    fun r => decide ((10 : Int) ≤ r.timeStamp))),
                ([⟨10, 5⟩, ⟨9, 15⟩] : List EthRecord).filter
                  fun r => decide ((10 : Int) ≤ r.timeStamp))]
            index := update_index_with_file wS3.index
              (make_chunk_filename wS3.cursor
                (minBlockOf (([⟨10, 5⟩, ⟨9, 15⟩] : List EthRecord).filter
                  fun r => decide ((10 : Int) ≤ r.timeStamp))))
            cursor := minBlockOf (([⟨10, 5⟩, ⟨9, 15⟩] : List EthRecord).filter
              fun r => decide ((10 : Int) ≤ r.timeStamp)) - 1 },
          .boundary)) ∧
    ((([⟨10, 5⟩, ⟨9, 15⟩] : List EthRecord).filter
          (fun r => decide ((10 : Int) ≤ r.timeStamp))) = [] →
      ethLoop wApi3 10 (3 + 1) wS3 = ({ wS3 with calls := wS3.calls + 1 }, .boundary))) :=
  ⟨by decide, rfl, by decide, by decide,
    c3_boundary_filter_and_stop wApi3 10 3 wS3 [⟨10, 5⟩, ⟨9, 15⟩]
      (by decide) rfl (by decide) (by decide)⟩

/-- C4: the claim states that a cursor lying inside a recorded range
`[low, high]` is moved to `low - 1` of that range without a fetch.  The skip
happens without a fetch, but the destination is wrong whenever the index
holds several ranges: `_covering_range` matches the global envelope, so on an
index with entries `[900,1000]` and `[400,500]` a cursor at `950` jumps to
`399` (envelope low minus one), not `899`, silently skipping the unfetched
gap `501..899`. -/
theorem c4_covered_cursor_jumps_to_envelope_low :
    covering_range 950
        ⟨[("1000_900.csv", (1000, 900)), ("500_400.csv", (500, 400))],
          some 400, some 1000, none, none, []⟩ = some (1000, 400) ∧
    ethLoop (fun _ => FetchResult.batch []) 0 1
        ⟨⟨[("1000_900.csv", (1000, 900)), ("500_400.csv", (500, 400))],
            some 400, some 1000, none, none, []⟩, 950, 0, 0, []⟩
      = (⟨⟨[("1000_900.csv", (1000, 900)), ("500_400.csv", (500, 400))],
            some 400, some 1000, none, none, []⟩, 399, 0, 0, []⟩, EthStop.fuelOut) ∧
    (ethLoop (fun _ => FetchResult.batch []) 0 1
        ⟨⟨[("1000_900.csv", (1000, 900)), ("500_400.csv", (500, 400))],
            some 400, some 1000, none, none, []⟩, 950, 0, 0, []⟩).1.calls = 0 := by
  decide

/-- C5: index serialization round-trips.  `json.dump` is deterministic and
injective on JSON values and `json.load` inverts it, so equality of
serialized index files is equality of the parsed values; on a well-formed
index value (all of `files`, `global`, `merged`, `merged.files` present —
which is what `save_index` ever writes) the load-time normalization of
`load_index` is the identity, hence
`save_index(load_index(save_index(idx))) = save_index(idx)`.  Loading a
legacy flat map whose filenames encode their `{high, low}` entries yields
the global envelope `(min of lows, max of highs)`, which equals the
envelope obtained by folding `update_index_with_file` over the same
filenames starting from the empty index. -/
theorem c5_index_roundtrip_and_legacy_envelope (fs : List (String × JEntry))
    (g : Option Int × Option Int) (mn mx : Option Int) (mf : List String)
    (ranges : List (Int × Int))
    (hp : ∀ p ∈ ranges, parse_block_range_from_filename (make_chunk_filename p.1 p.2) = some p) :
    load_index_norm (.modern fs (some g) (some (mn, mx, some mf)))
      = .modern fs (some g) (some (mn, mx, some mf)) ∧
    load_index_norm (.legacy (ranges.map fun p => (make_chunk_filename p.1 p.2, ⟨p.1, p.2⟩)))
      = .modern (ranges.map fun p => (make_chunk_filename p.1 p.2, ⟨p.1, p.2⟩))
          (some (pyMinList (ranges.map fun p => p.2), pyMaxList (ranges.map fun p => p.1)))
          (some (none, none, some [])) ∧
    (List.foldl update_index_with_file empty_index
        (ranges.map fun p => make_chunk_filename p.1 p.2)).globalMin
      = pyMinList (ranges.map fun p => p.2) ∧
    (List.foldl update_index_with_file empty_index
        (ranges.map fun p => make_chunk_filename p.1 p.2)).globalMax
      = pyMaxList (ranges.map fun p => p.1) := by
  obtain ⟨e1, e2⟩ := foldl_update_envelope ranges empty_index hp
  refine ⟨rfl, ?_, ?_, ?_⟩
  · simp only [load_index_norm, List.map_map]
    exact congrArg₂ (fun a b => JIndexVal.modern _ (some (a, b)) _) rfl rfl
  · rw [e1]
    exact foldl_mergeMinO_none _
  · rw [e2]
    exact foldl_mergeMaxO_none _

theorem c5_index_roundtrip_and_legacy_envelope_witness :
    (∀ p ∈ ([(10, 9), (6, 4)] : List (Int × Int)),
      parse_block_range_from_filename (make_chunk_filename p.1 p.2) = some p) ∧
    (load_index_norm (.modern [("10_9.csv", ⟨10, 9⟩)] (some (some 9, some 10))
          (some (none, none, some [])))
        = .modern [("10_9.csv", ⟨10, 9⟩)] (some (some 9, some 10))
            (some (none, none, some [])) ∧
      load_index_norm
          (.legacy (([(10, 9), (6, 4)] : List (Int × Int)).map
            fun p => (make_chunk_filename p.1 p.2, ⟨p.1, p.2⟩)))
        = .modern (([(10, 9), (6, 4)] : List (Int × Int)).map
              fun p => (make_chunk_filename p.1 p.2, ⟨p.1, p.2⟩))
            (some (pyMinList (([(10, 9), (6, 4)] : List (Int × Int)).map fun p => p.2),
                   pyMaxList (([(10, 9), (6, 4)] : List (Int × Int)).map fun p => p.1)))
            (some (none, none, some [])) ∧
      (List.foldl update_index_with_file empty_index
          (([(10, 9), (6, 4)] : List (Int × Int)).map
            fun p => make_chunk_filename p.1 p.2)).globalMin
        = pyMinList (([(10, 9), (6, 4)] : List (Int × Int)).map fun p => p.2) ∧
      (List.foldl update_index_with_file empty_index
          (([(10, 9), (6, 4)] : List (Int × Int)).map
            fun p => make_chunk_filename p.1 p.2)).globalMax
        = pyMaxList (([(10, 9), (6, 4)] : List (Int × Int)).map fun p => p.1)) :=
  ⟨by decide,
    c5_index_roundtrip_and_legacy_envelope [("10_9.csv", ⟨10, 9⟩)] (some 9, some 10)
      none none [] [(10, 9), (6, 4)] (by decide)⟩

/-- C6 counterexample: the final dataset of `merge.merge_csv_files` is
deduplicated with `pl.unique()`, i.e. on FULL-record equality, not on
`hash`: two rows sharing a hash but differing in a mutable auxiliary column
(here `confirmations`) both survive, so the claim "no two rows with equal
hash" fails on the code. -/
theorem c6_counterexample_equal_hash_rows_survive :
    merge_csv_files_model [[⟨"h", 1⟩, ⟨"h", 2⟩]] = some [⟨"h", 1⟩, ⟨"h", 2⟩] ∧
    (⟨"h", 1⟩ : MRow).hash = (⟨"h", 2⟩ : MRow).hash ∧
    (⟨"h", 1⟩ : MRow) ≠ (⟨"h", 2⟩ : MRow) := by
  decide

/-- C6 (amended): merging is idempotent — a second `merge_eth` run over the
same chunk directory appends no rows and leaves index and output unchanged,
because every chunk processed by the first run was marked merged — and the
final dataset of `merge.merge_csv_files` contains no two identical rows
(full-record equality; rows equal only in `hash` may both survive). -/
theorem c6_amended_merge_idempotent_full_dedup :
    (∀ (dir : List (String × List MRow)) (idx : EthIndex) (out : List MRow),
      mergeEthRun dir (mergeEthRun dir idx out).1 (mergeEthRun dir idx out).2
        = mergeEthRun dir idx out) ∧
    (∀ (files : List (List MRow)) (o : List MRow),
      merge_csv_files_model files = some o → o.Nodup) := by
  constructor
  · intro dir idx out
    by_cases hc : (iter_new_chunk_files dir idx).isEmpty
    · have h1 : mergeEthRun dir idx out = (idx, out) := by
        unfold mergeEthRun
        simp [hc]
      rw [h1]
      exact h1
    · have hrun1 : mergeEthRun dir idx out =
          (finishMerge (processChunks idx out [] 1 (iter_new_chunk_files dir idx)),
           (processChunks idx out [] 1 (iter_new_chunk_files dir idx)).2.1) := by
        unfold mergeEthRun finishMerge
        simp [hc]
      have hall : ∀ nf ∈ dir, nf.1 ≠ MERGED_FILE →
          (parse_block_range_from_filename nf.1).isSome →
          nf.1 ∈ (mergeEthRun dir idx out).1.mergedFiles := by
        intro nf hnf hn1 hp
        rw [hrun1]
        by_cases hm : nf.1 ∈ idx.mergedFiles
        · exact processChunks_mono _ _ _ _ _ _ hm
        · cases hps : parse_block_range_from_filename nf.1 with
          | none => rw [hps] at hp; cases hp
          | some p =>
            have hmem := iter_mem_of_candidate dir idx nf.1 nf.2 p.1 p.2 hnf hn1 hm
              (by rw [hps])
            apply processChunks_covers
            exact Or.inr (List.mem_map.mpr ⟨(p.1, p.2, nf.1, nf.2), hmem, rfl⟩)
      have hiter2 : iter_new_chunk_files dir (mergeEthRun dir idx out).1 = [] :=
        iter_empty_of_all_merged _ _ hall
      rw [mergeEthRun_of_iter_empty dir (mergeEthRun dir idx out).1
        (mergeEthRun dir idx out).2 hiter2]
  · intro files o h
    unfold merge_csv_files_model at h
    split at h
    · cases h
    · injection h with h2
      rw [← h2]
      exact List.nodup_dedup _

theorem c6_amended_merge_idempotent_full_dedup_witness :
    (mergeEthRun wDir6 (mergeEthRun wDir6 empty_index []).1 (mergeEthRun wDir6 empty_index []).2
      = mergeEthRun wDir6 empty_index []) ∧
    merge_csv_files_model [[⟨"a", 1⟩]] = some [(⟨"a", 1⟩ : MRow)] ∧
    ([(⟨"a", 1⟩ : MRow)] : List MRow).Nodup :=
  ⟨c6_amended_merge_idempotent_full_dedup.1 wDir6 empty_index [], by decide,
    c6_amended_merge_idempotent_full_dedup.2 [[⟨"a", 1⟩]] [⟨"a", 1⟩] (by decide)⟩

/-- C7 counterexample: the claim says three consecutive fetched pages each
contributing zero newly-appended records terminate the current slice.  A
page whose records all lack a usable timestamp contributes zero appended
records, but the `if not norm: continue` path (fetch_tron.py lines 191-194)
advances the offset WITHOUT touching the duplicate counter: with every page
equal to `[wBadRec]`, five pages are fetched (fetch count 5), the store
never grows, the duplicate counter stays 0, and the slice does not
terminate at the third page. -/
theorem c7_counterexample_unnormalizable_pages_not_counted :
    normalize_trc20_transfers [wBadRec] = [] ∧
    tronSlice (fun _ => [wBadRec]) 5 ⟨0, 0, [], 0, 0, 0⟩
      = (⟨250, 0, [], 5, 0, 5⟩, TronStop.fuelOut) := by
  decide

/-- C7 (amended): a fetched page that normalizes to at least one record but
appends zero new records increments the consecutive-duplicate counter; when
the counter reaches `DUP_PAGES_BREAK = 3` the slice terminates immediately
(no further fetch in it) with the page offset reset to zero, and otherwise
(counter below the threshold, full-length page, page cap not reached) the
loop continues at the next offset.  Pages with no normalizable records are
not counted (see the counterexample). -/
theorem c7_amended_dup_break_after_counted_pages (api : Nat → List TronRec) (fuel : Nat)
    (s : TronSliceState) (page : List TronRec)
    (hapi : api s.fetchCount = page)
    (hne : page ≠ [])
    (hnorm : normalize_trc20_transfers page ≠ [])
    (hzero : (tronWritePage s.store (groupByBlock page)).2 = 0) :
    (DUP_PAGES_BREAK ≤ s.dupCounter + 1 →
      tronSlice api (fuel + 1) s =
        ({ s with fetchCount := s.fetchCount + 1, pagesInSlice := s.pagesInSlice + 1,
                  store := (tronWritePage s.store (groupByBlock page)).1,
                  dupCounter := s.dupCounter + 1, offset := 0 }, .dupBreak)) ∧
    (s.dupCounter + 1 < DUP_PAGES_BREAK → s.pagesInSlice + 1 < MAX_PAGES_PER_WINDOW →
      page.length = PAGE_LIMIT →
      tronSlice api (fuel + 1) s =
        tronSlice api fuel
          { s with fetchCount := s.fetchCount + 1, pagesInSlice := s.pagesInSlice + 1,
                   store := (tronWritePage s.store (groupByBlock page)).1,
                   dupCounter := s.dupCounter + 1, offset := s.offset + PAGE_LIMIT }) := by
  obtain ⟨p0, ps0, rfl⟩ := List.exists_cons_of_ne_nil hne
  have hnormf : (normalize_trc20_transfers (p0 :: ps0)).isEmpty = false := by
    cases hn : normalize_trc20_transfers (p0 :: ps0) with
    | nil => exact absurd hn hnorm
    | cons a as => rfl
  constructor
  · intro hbrk
    simp only [tronSlice, hapi, List.isEmpty_cons, Bool.false_eq_true, if_false, hnormf,
      hzero, if_pos rfl, if_true, Nat.add_zero, if_pos hbrk]
  · intro hlt hmax hlen
    simp only [tronSlice, hapi, List.isEmpty_cons, Bool.false_eq_true, if_false, hnormf,
      hzero, if_pos rfl, if_true, Nat.add_zero, if_neg (Nat.not_le_of_lt hlt),
      if_neg (Nat.not_le_of_lt hmax), hlen, lt_irrefl, if_false]

theorem c7_amended_dup_break_after_counted_pages_witness :
    (fun _ : Nat => [wGoodRec]) wS7.fetchCount = [wGoodRec] ∧
    ([wGoodRec] : List TronRec) ≠ [] ∧
    normalize_trc20_transfers [wGoodRec] ≠ [] ∧
    (tronWritePage wS7.store (groupByBlock [wGoodRec])).2 = 0 ∧
    ((DUP_PAGES_BREAK ≤ wS7.dupCounter + 1 →
      tronSlice (fun _ => [wGoodRec]) (4 + 1) wS7 =
        ({ wS7 with fetchCount := wS7.fetchCount + 1, pagesInSlice := wS7.pagesInSlice + 1,
                    store := (tronWritePage wS7.store (groupByBlock [wGoodRec])).1,
                    dupCounter := wS7.dupCounter + 1, offset := 0 }, .dupBreak)) ∧
    (wS7.dupCounter + 1 < DUP_PAGES_BREAK → wS7.pagesInSlice + 1 < MAX_PAGES_PER_WINDOW →
      ([wGoodRec] : List TronRec).length = PAGE_LIMIT →
      tronSlice (fun _ => [wGoodRec]) (4 + 1) wS7 =
        tronSlice (fun _ => [wGoodRec]) 4
          { wS7 with fetchCount := wS7.fetchCount + 1, pagesInSlice := wS7.pagesInSlice + 1,
                     store := (tronWritePage wS7.store (groupByBlock [wGoodRec])).1,
                     dupCounter := wS7.dupCounter + 1, offset := wS7.offset + PAGE_LIMIT })) :=
  ⟨rfl, by decide, by decide, by decide,
    c7_amended_dup_break_after_counted_pages (fun _ => [wGoodRec]) 4 wS7 [wGoodRec]
      rfl (by decide) (by decide) (by decide)⟩

/-- C8 counterexample: on the TRON paging path the caller CANNOT treat a
hard API failure differently from a genuine empty result: `tronscan._get`
returns the empty dict `{}` after exhausting retries and endpoint
fallbacks, the transfer-list extraction of `fetch_trc20_transfers_page`
maps both `{}` and a response whose transfer list is empty to `[]`, and the
harvest slice loop consequently behaves identically on the two (normal
window termination, no abort, no logged hard error) — contradicting the
claim that the distinction is made on both the EVM and TRON paths. -/
theorem c8_counterexample_tron_hard_error_equals_empty :
    tron_extract_transfers (tron_get [[], []]) = [] ∧
    tron_extract_transfers [("token_transfers", TronJItem.list [])] = [] ∧
    tronSlice (fun _ => tron_extract_transfers (tron_get [[], []])) 3 ⟨0, 0, [], 0, 0, 0⟩
      = tronSlice (fun _ => tron_extract_transfers [("token_transfers", TronJItem.list [])])
          3 ⟨0, 0, [], 0, 0, 0⟩ ∧
    (tronSlice (fun _ => tron_extract_transfers (tron_get [[], []])) 3 ⟨0, 0, [], 0, 0, 0⟩).2
      = TronStop.emptyPage := by
  decide

/-- C8 (amended): on the EVM path the distinction IS made: `_fetch_batch`
signals a hard error as `None` and an empty result as an empty frame; the
loop retries a hard error exactly once and, if it persists, aborts the walk
(reason `hardFail`, two calls consumed, nothing written), while a successful
retry proceeds with the returned batch; an empty batch merely feeds the
empty-batch counter and continues the loop below the limit.  On the TRON
path the client (`_get`) retries internally with backoff and endpoint
fallback but surfaces a persistent failure as the empty dict, which the
extraction maps to `[]` — indistinguishable from a genuine empty page, so
the TRON caller treats both as normal window termination. -/
theorem c8_amended_error_path_distinction (api : Nat → FetchResult) (T : Int) (fuel : Nat)
    (s : EthState) (hcov : covering_range s.cursor s.index = none) :
    (api s.calls = .hard → api (s.calls + 1) = .hard →
      ethLoop api T (fuel + 1) s = ({ s with calls := s.calls + 2 }, .hardFail)) ∧
    (∀ rows, api s.calls = .hard → api (s.calls + 1) = .batch rows →
      ethLoop api T (fuel + 1) s =
        (match ethProcessBatch T { s with calls := s.calls + 2 } rows with
         | Sum.inl done => done
         | Sum.inr s2 => ethLoop api T fuel s2)) ∧
    (api s.calls = .batch [] → s.emptyBatches + 1 < MAX_EMPTY_BATCHES →
      ethLoop api T (fuel + 1) s =
        ethLoop api T fuel
          { s with calls := s.calls + 1, emptyBatches := s.emptyBatches + 1,
                   cursor := s.cursor - 1 }) ∧
    (api s.calls = .batch [] → MAX_EMPTY_BATCHES ≤ s.emptyBatches + 1 →
      ethLoop api T (fuel + 1) s =
        ({ s with calls := s.calls + 1, emptyBatches := s.emptyBatches + 1 }, .emptyLimit)) ∧
    (∀ responses : List (List (String × TronJItem)), (∀ r ∈ responses, r = []) →
      tron_extract_transfers (tron_get responses) = []) ∧
    tron_extract_transfers [("token_transfers", TronJItem.list [])] = [] := by
  refine ⟨?_, ?_, ?_, ?_, fun rs h => by rw [tron_get_all_failed rs h]; rfl, rfl⟩
  · intro h1 h2
    simp only [ethLoop, hcov, h1, h2]
  · intro rows h1 h2
    simp only [ethLoop, hcov, h1, h2]
  · intro h1 h2
    simp only [ethLoop, hcov, h1, ethProcessBatch, List.isEmpty_nil, if_true,
      if_neg (Nat.not_le_of_lt h2)]
  · intro h1 h2
    simp only [ethLoop, hcov, h1, ethProcessBatch, List.isEmpty_nil, if_true, if_pos h2]

theorem c8_amended_error_path_distinction_witness :
    covering_range wS8.cursor wS8.index = none ∧
    wApi8 wS8.calls = .hard ∧
    wApi8 (wS8.calls + 1) = .hard ∧
    ethLoop wApi8 0 (1 + 1) wS8 = ({ wS8 with calls := wS8.calls + 2 }, .hardFail) :=
  ⟨by decide, rfl, rfl,
    (c8_amended_error_path_distinction wApi8 0 1 wS8 (by decide)).1 rfl rfl⟩

/-- C9 counterexample: `normalize_trc20_transfers` drops records whose
timestamp cannot be converted, but nothing counts the drops: the function's
complete observable behaviour (it is pure, with no logging) on an input
containing a dropped record is identical to its behaviour on the input
without that record, so the claimed drop counting for observability does
not exist in the code. -/
theorem c9_counterexample_drops_unobservable :
    tron_norm_one wBadRec = none ∧
    normalize_trc20_transfers [wR1, wR2, wBadRec] = normalize_trc20_transfers [wR1, wR2] := by
  decide

/-- C9 (amended): the normalizer is pure and, for every record whose
timestamp chain converts to an integer `v`, emits a second-resolution
timestamp — `v` itself when `v < 10^12`, `v` integer-divided by 1000 when
`v ≥ 10^12` (milliseconds), keeping the millisecond value in
`timestamp_ms`; records whose timestamp does not convert are dropped
silently (and NOT counted — see the counterexample), so the output length
plus the number of unconvertible records equals the input length; the
output is sorted newest-timestamp-first and the sort is stable (records
with equal timestamps keep their input order). -/
theorem c9_amended_normalizer_spec (raw : List TronRec) (t : TronRec) (v : Int)
    (hts : pyInt (tron_ts_raw t) = some v) :
    (∀ r, tron_norm_one t = some r →
      (r.timeStamp = if v < 1000000000000 then v else Int.ediv v 1000) ∧
      r.timestamp_ms = (if v < 1000000000000 then v * 1000 else v)) ∧
    (tron_norm_one t).isSome ∧
    ((normalize_trc20_transfers raw).length
      + (raw.filter fun x => (pyInt (tron_ts_raw x)).isNone).length = raw.length) ∧
    (normalize_trc20_transfers raw).Pairwise (fun a b => b.timeStamp ≤ a.timeStamp) ∧
    (∀ k : Int, (normalize_trc20_transfers raw).filter (fun r => decide (r.timeStamp = k)) =
      (raw.filterMap tron_norm_one).filter fun r => decide (r.timeStamp = k)) := by
  obtain ⟨s1, s2, s3⟩ :=
    sortBy_key_spec (fun r : NormRec => r.timeStamp) (raw.filterMap tron_norm_one)
  refine ⟨?_, ?_, ?_, ?_, ?_⟩
  · intro r hr
    unfold tron_norm_one at hr
    rw [hts] at hr
    simp only [Option.some.injEq] at hr
    subst hr
    by_cases hv : v < 1000000000000
    · simp only [if_pos hv]
      exact ⟨Int.mul_ediv_cancel v (by norm_num), trivial⟩
    · simp only [if_neg hv]
      exact ⟨trivial, trivial⟩
  · unfold tron_norm_one
    rw [hts]
    rfl
  · have := filterMap_drop_count raw
    unfold normalize_trc20_transfers
    rw [tsGe_eq_keyGe, s3]
    exact this
  · unfold normalize_trc20_transfers
    rw [tsGe_eq_keyGe]
    exact s1
  · intro k
    unfold normalize_trc20_transfers
    rw [tsGe_eq_keyGe]
    exact s2 k

theorem c9_amended_normalizer_spec_witness :
    pyInt (tron_ts_raw wR1) = some 1700000000000 ∧
    ((∀ r, tron_norm_one wR1 = some r →
      (r.timeStamp = if (1700000000000 : Int) < 1000000000000 then 1700000000000
        else Int.ediv 1700000000000 1000) ∧
      r.timestamp_ms = (if (1700000000000 : Int) < 1000000000000 then 1700000000000 * 1000
        else 1700000000000)) ∧
    (tron_norm_one wR1).isSome ∧
    ((normalize_trc20_transfers [wR1, wR2, wBadRec]).length
      + (([wR1, wR2, wBadRec] : List TronRec).filter
          fun x => (pyInt (tron_ts_raw x)).isNone).length
        = ([wR1, wR2, wBadRec] : List TronRec).length) ∧
    (normalize_trc20_transfers [wR1, wR2, wBadRec]).Pairwise
      (fun a b => b.timeStamp ≤ a.timeStamp) ∧
    (∀ k : Int,
      (normalize_trc20_transfers [wR1, wR2, wBadRec]).filter
          (fun r => decide (r.timeStamp = k)) =
        (([wR1, wR2, wBadRec] : List TronRec).filterMap tron_norm_one).filter
          fun r => decide (r.timeStamp = k))) :=
  ⟨by decide, c9_amended_normalizer_spec [wR1, wR2, wBadRec] wR1 1700000000000 (by decide)⟩

/-- C10: in the EVM harvester loop the empty-batch counter is only ever
incremented, never reset by a non-empty batch: over any run it is
monotonically non-decreasing, and the moment the cumulative count of empty
batches reaches `MAX_EMPTY_BATCHES = 3` — even with non-empty batches in
between — the loop stops with the empty-limit reason. -/
theorem c10_empty_batch_counter_monotone_and_limit (api : Nat → FetchResult) (T : Int)
    (fuel : Nat) (s : EthState) :
    s.emptyBatches ≤ (ethLoop api T fuel s).1.emptyBatches ∧
    (s.emptyBatches < MAX_EMPTY_BATCHES →
      (ethLoop api T fuel s).1.emptyBatches ≤ MAX_EMPTY_BATCHES ∧
      ((ethLoop api T fuel s).1.emptyBatches = MAX_EMPTY_BATCHES →
        (ethLoop api T fuel s).2 = EthStop.emptyLimit)) :=
  ethLoop_ecInv api T fuel s

theorem c10_empty_batch_counter_monotone_and_limit_witness :
    wS10.emptyBatches < MAX_EMPTY_BATCHES ∧
    (ethLoop wApi10 50 6 wS10).1.emptyBatches = MAX_EMPTY_BATCHES ∧
    ((ethLoop wApi10 50 6 wS10).1.emptyBatches ≤ MAX_EMPTY_BATCHES ∧
      ((ethLoop wApi10 50 6 wS10).1.emptyBatches = MAX_EMPTY_BATCHES →
        (ethLoop wApi10 50 6 wS10).2 = EthStop.emptyLimit)) :=
  ⟨by decide, by decide,
    (c10_empty_batch_counter_monotone_and_limit wApi10 50 6 wS10).2 (by decide)⟩
